import Mathlib

/-!
Verification of the IPTV playlist scraper (`scraper.py`).

The scraper is a linear pipeline: fetch HTML for each registered source,
extract stream-like links with two fixed case-insensitive regular
expressions, format one playlist entry per link, and write an M3U file.

This file gives a shallow embedding of that pipeline:

* the two regular expressions
  `https?://[^\s'"]+\.m3u8[^\s'"]*` and
  `https?://[^\s'"]+/(?:stream|live)[^\s'"]*`
  are embedded as an executable backtracking matcher specialised to the
  common shape `https?://` · `[^\s'"]+` · (literal alternation) · `[^\s'"]*`,
  with Python's leftmost, greedy, non-overlapping `findall` scan;
* `BeautifulSoup.get_text(" ")` (an external library call) is modelled from
  the spec as the tag-stripped text segments joined by single spaces;
* the HTTP layer (`requests.get` / `raise_for_status`) is modelled as an
  oracle from URLs to outcomes, with `raise_for_status` raising exactly on
  status codes 400–599 as the requests library does;
* the filesystem is modelled as a map from paths to file contents, and
  `Path.write_text` as a pointwise update.

Uncaught Python exceptions are modelled with `Except`.
-/

/-! ## Character classes

Python's `[^\s'"]` for `str` patterns: any character that is not whitespace
and not a single or double quote.  We model `\s` by its ASCII members
(space, tab, newline, carriage return, vertical tab, form feed); non-ASCII
Unicode whitespace is not modelled, which is immaterial for the claims. -/

def pyIsSpace (c : Char) : Bool :=
  c == ' ' || c == '\t' || c == '\n' || c == '\r' || c == '\x0b' || c == '\x0c'

/-- `[^\s'"]` : the character class allowed inside a matched link. -/
def isLinkChar (c : Char) : Bool :=
  !(pyIsSpace c || c == '\'' || c == '\"')

/-! ## Case-insensitive literal matching (re.IGNORECASE)

The pattern literals (`http`, `https`, `://`, `.m3u8`, `/stream`, `/live`)
are matched case-insensitively; for the ASCII characters involved this is
comparison of `Char.toLower` images. -/

/-- Does the literal `l` match a prefix of `cs`, case-insensitively? -/
def matchLitCI : List Char → List Char → Bool
  | [], _ => true
  | _ :: _, [] => false
  | l :: ls, c :: cs => (c.toLower == l.toLower) && matchLitCI ls cs

/-- First literal of the alternation that matches a prefix of `cs`
(backtracking alternation tries alternatives in order); returns the number
of characters it consumes. -/
def matchAlts : List (List Char) → List Char → Option Nat
  | [], _ => none
  | l :: ls, cs => if matchLitCI l cs then some l.length else matchAlts ls cs

/-- Match `(lit₁|lit₂|…)[^\s'"]*` at the head of `cs`:
the alternation followed by a greedy run of link characters.
Returns the number of characters consumed. -/
def altStar (lits : List (List Char)) (cs : List Char) : Option Nat :=
  match matchAlts lits cs with
  | none => none
  | some k => some (k + ((cs.drop k).takeWhile isLinkChar).length)

/-- Match `[^\s'"]*(lit₁|lit₂|…)[^\s'"]*` at the head of `cs` with the
leftmost-greedy backtracking discipline of Python's `re`: prefer consuming
one more `[^\s'"]` character; on failure of the longer attempt, try the
alternation at the current position.  Returns the characters consumed. -/
def starAltStar (lits : List (List Char)) : List Char → Option Nat
  | [] => altStar lits []
  | c :: cs =>
    if isLinkChar c then
      match starAltStar lits cs with
      | some n => some (n + 1)
      | none => altStar lits (c :: cs)
    else altStar lits (c :: cs)

def httpsLit : List Char := ['h', 't', 't', 'p', 's', ':', '/', '/']

def httpLit : List Char := ['h', 't', 't', 'p', ':', '/', '/']

/-- Match `https?://` at the head of `cs` (greedy `s?`: the variant with
`s` is preferred).  Returns the number of characters consumed. -/
def matchScheme (cs : List Char) : Option Nat :=
  if matchLitCI httpsLit cs then some 8
  else if matchLitCI httpLit cs then some 7
  else none

/-- Match a whole pattern `https?://[^\s'"]+(…alternation…)[^\s'"]*` at the
head of `cs` (`[^\s'"]+` is one link character followed by `[^\s'"]*`).
Returns the length of the match. -/
def matchAt (lits : List (List Char)) (cs : List Char) : Option Nat :=
  match matchScheme cs with
  | none => none
  | some m =>
    match cs.drop m with
    | [] => none
    | c :: rest =>
      if isLinkChar c then
        match starAltStar lits rest with
        | some n => some (m + 1 + n)
        | none => none
      else none

/-- `re.findall` scan: try the pattern at each position from the left; on a
match, emit the matched text and resume after it (matches never overlap).
The fuel argument is structural; `findall` supplies enough fuel for the
whole text. -/
def findAllF (lits : List (List Char)) : Nat → List Char → List String
  | 0, _ => []
  | _ + 1, [] => []
  | fuel + 1, c :: cs =>
    match matchAt lits (c :: cs) with
    | some n => String.mk ((c :: cs).take n) :: findAllF lits fuel ((c :: cs).drop n)
    | none => findAllF lits fuel cs

/-- `pattern.findall(text)` for one of the two stream-link patterns,
`pattern` being given by its alternation literals. -/
def findall (lits : List (List Char)) (s : String) : List String :=
  findAllF lits (s.data.length + 1) s.data

/-- Alternation literals of `https?://[^\s'"]+\.m3u8[^\s'"]*`. -/
def m3u8Lits : List (List Char) := [['.', 'm', '3', 'u', '8']]

/-- Alternation literals of `https?://[^\s'"]+/(?:stream|live)[^\s'"]*`. -/
def streamLiveLits : List (List Char) :=
  [['/', 's', 't', 'r', 'e', 'a', 'm'], ['/', 'l', 'i', 'v', 'e']]

/-! ## BeautifulSoup text rendering -/

/-- Skip the remainder of a markup tag: drop characters up to and including
the next `>`. -/
def skipTag : List Char → List Char
  | [] => []
  | c :: cs => if c = '>' then cs else skipTag cs

/-- Text segments of an HTML string: maximal runs of characters lying
outside `<…>` tags.  Fuel-structural; always returns at least one
(possibly empty) segment. -/
def textSegmentsF : Nat → List Char → List (List Char)
  | 0, _ => [[]]
  | _ + 1, [] => [[]]
  | fuel + 1, c :: cs =>
    if c = '<' then [] :: textSegmentsF fuel (skipTag cs)
    else
      match textSegmentsF fuel cs with
      | [] => [[c]]
      | s :: rest => (c :: s) :: rest

/-- Join segments with a single space between consecutive segments. -/
def joinSp : List (List Char) → List Char
  | [] => []
  | [s] => s
  | s :: rest => s ++ ' ' :: joinSp rest

/-- Modelled from the spec: `BeautifulSoup(html, "html.parser").get_text(" ")`
is library code absent from the repository; per the spec it is "a
whitespace-joined plain-text rendering with markup tags stripped".  We strip
`<…>` tag spans and join the remaining text segments with single spaces
(entity decoding and parser recovery for malformed markup are not
modelled). -/
def get_text (html : String) : String :=
  String.mk (joinSp (textSegmentsF (html.data.length + 1) html.data))

/-! ## `sorted(set(...))` -/

/-- Code-point lexicographic strict order on character lists: Python's `<`
on `str`. -/
def charsLt : List Char → List Char → Bool
  | _, [] => false
  | [], _ :: _ => true
  | a :: as, b :: bs =>
    if a.toNat < b.toNat then true
    else if b.toNat < a.toNat then false
    else charsLt as bs

/-- Insert a string into a strictly sorted list, dropping it if already
present. -/
def insertSorted (x : String) : List String → List String
  | [] => [x]
  | y :: ys =>
    if x = y then y :: ys
    else if charsLt x.data y.data then x :: y :: ys
    else y :: insertSorted x ys

/-- `sorted(set(l))`: the distinct elements of `l` in code-point
lexicographic order. -/
def sortDedup (l : List String) : List String := l.foldr insertSorted []

/-! ## The scraper pipeline -/

/-- `extract_stream_links`: scan the raw HTML and its text rendering with
both patterns, collect all matches into a set, and return them sorted.
The collection order (raw text then rendered text, `.m3u8` pattern then
`/stream|/live` pattern) mirrors the source loops; it is immaterial after
`sortDedup`. -/
def extract_stream_links (html : String) : List String :=
  sortDedup
    ((findall m3u8Lits html ++ findall streamLiveLits html) ++
     (findall m3u8Lits (get_text html) ++ findall streamLiveLits (get_text html)))

/-- A registered source: display name and page URL. -/
structure Source where
  name : String
  url : String

/-- `Source.extract_links`: the default extraction method; no source in the
repository overrides it. -/
def Source.extract_links (_ : Source) (html : String) : List String :=
  extract_stream_links html

/-- The hardcoded source registry. -/
def SOURCES : List Source :=
  [⟨"Toffee", "https://toffeelive.com/en/live"⟩,
   ⟨"Bongo", "https://example.com/bongo"⟩]

/-- Outcome of one HTTP GET (the network is an oracle from URLs to
outcomes): a final response with a status code and decoded text body, or a
transport-level failure raised by `requests.get` itself. -/
inductive HttpOutcome where
  | response (status : Nat) (body : String)
  | connectionFailure
  | timeout
deriving DecidableEq

/-- The exceptions `fetch_html` can raise. -/
inductive TransportError where
  | httpError (status : Nat)
  | connectionFailure
  | timeout
deriving DecidableEq

instance {e a : Type} [DecidableEq e] [DecidableEq a] : DecidableEq (Except e a) :=
  fun x y =>
    match x, y with
    | .ok u, .ok v =>
      if h : u = v then Decidable.isTrue (by rw [h])
      else Decidable.isFalse (by simp [h])
    | .error u, .error v =>
      if h : u = v then Decidable.isTrue (by rw [h])
      else Decidable.isFalse (by simp [h])
    | .ok _, .error _ => Decidable.isFalse (by simp)
    | .error _, .ok _ => Decidable.isFalse (by simp)

/-- `response.raise_for_status()`: the requests library raises `HTTPError`
exactly for client-error (4xx) and server-error (5xx) status codes. -/
def raise_for_status (status : Nat) : Option TransportError :=
  if 400 ≤ status ∧ status < 600 then some (.httpError status) else none

/-- `fetch_html(url)`: one GET against the oracle; propagate transport
failures; raise for 4xx/5xx; otherwise return the body text.  (The
`timeout=20` argument only bounds real time; its expiry is the oracle's
`timeout` outcome.) -/
def fetch_html (http : String → HttpOutcome) (url : String) :
    Except TransportError String :=
  match http url with
  | .connectionFailure => .error .connectionFailure
  | .timeout => .error .timeout
  | .response status body =>
    match raise_for_status status with
    | some e => .error e
    | none => .ok body

/-- `format_playlist_entry(name, url) = f"#EXTINF:-1, {name}\n{url}"`. -/
def format_playlist_entry (name url : String) : String :=
  "#EXTINF:-1, " ++ name ++ "\n" ++ url

/-- Decimal digits of `n` (fuel-structural). -/
def decDigits : Nat → Nat → List Char
  | 0, _ => []
  | fuel + 1, n =>
    if n < 10 then [Char.ofNat (48 + n)]
    else decDigits fuel (n / 10) ++ [Char.ofNat (48 + n % 10)]

/-- Decimal rendering of a natural number, as in Python's `f"{index}"`. -/
def natToStr (n : Nat) : String := String.mk (decDigits (n + 1) n)

/-- `enumerate(links, start=1)`. -/
def enumerateFrom : Nat → List α → List (Nat × α)
  | _, [] => []
  | i, a :: as => (i, a) :: enumerateFrom (i + 1) as

/-- The entries contributed by one source: one entry per extracted link at
1-based position `i`, named `f"{source.name} {i}"`. -/
def sourceEntries (s : Source) (links : List String) : List String :=
  (enumerateFrom 1 links).map fun p =>
    format_playlist_entry (s.name ++ " " ++ natToStr p.1) p.2

/-- The body of `build_playlist`'s loop: fetch each source in order, extract
its links, and append its formatted entries; the first fetch error aborts
the whole build. -/
def buildEntries (http : String → HttpOutcome) :
    List Source → Except TransportError (List String)
  | [] => .ok []
  | s :: rest =>
    match fetch_html http s.url with
    | .error e => .error e
    | .ok html =>
      match buildEntries http rest with
      | .error e => .error e
      | .ok more => .ok (sourceEntries s (s.extract_links html) ++ more)

/-- `build_playlist(sources)`: the header `#EXTM3U` followed by every
source's entries in registry order. -/
def build_playlist (http : String → HttpOutcome) (sources : List Source) :
    Except TransportError (List String) :=
  match buildEntries http sources with
  | .ok es => .ok ("#EXTM3U" :: es)
  | .error e => .error e

/-- The file content `save_playlist` serialises:
`"\n".join(entries) + "\n"`. -/
def playlistText (entries : List String) : String :=
  String.intercalate "\n" entries ++ "\n"

def PLAYLIST_PATH : String := "playlist.m3u"

/-- `path.write_text(content)` on a filesystem modelled as a partial map
from paths to contents: overwrite whatever was at `path`. -/
def write_text (fs : String → Option String) (path content : String) :
    String → Option String :=
  fun q => if q = path then some content else fs q

/-- `save_playlist(entries, path)`. -/
def save_playlist (fs : String → Option String) (entries : List String)
    (path : String) : String → Option String :=
  write_text fs path (playlistText entries)

/-- `main()` on a given network oracle, source registry and filesystem:
build, then write on success; an uncaught build error leaves the
filesystem untouched. -/
def main_run (http : String → HttpOutcome) (sources : List Source)
    (fs : String → Option String) : String → Option String :=
  match build_playlist http sources with
  | .ok es => save_playlist fs es PLAYLIST_PATH
  | .error _ => fs

/-! ## Shape predicates (for claim C4)

The two "accepted shapes" of a stream link, per the spec's data model:
ending in `.m3u8` optionally followed by non-whitespace/non-quote
characters, or containing `/stream` or `/live`; both case-insensitive as
the patterns are compiled with `re.IGNORECASE`. -/

/-- `w` starts with `http://` or `https://` (case-insensitively). -/
def isHttpUrl (w : String) : Bool :=
  matchLitCI httpsLit w.data || matchLitCI httpLit w.data

/-- Some position of `xs` carries `.m3u8` (case-insensitively) followed
only by non-whitespace/non-quote characters. -/
def hasM3u8Suffix : List Char → Bool
  | [] => false
  | c :: cs =>
    (matchLitCI ['.', 'm', '3', 'u', '8'] (c :: cs) && ((c :: cs).drop 5).all isLinkChar)
      || hasM3u8Suffix cs

/-- Some position of `xs` carries `/stream` or `/live`
(case-insensitively). -/
def hasStreamLiveSegment : List Char → Bool
  | [] => false
  | c :: cs =>
    matchLitCI ['/', 's', 't', 'r', 'e', 'a', 'm'] (c :: cs)
      || matchLitCI ['/', 'l', 'i', 'v', 'e'] (c :: cs)
      || hasStreamLiveSegment cs

/-! ## Lemmas: character classes and literals -/

/-- Length of the greedy `[^\s'"]*` run at the head of `cs`. -/
def runLen (cs : List Char) : Nat := (cs.takeWhile isLinkChar).length

/-- All characters of a pattern literal are link characters fixed by
`toLower`; the literal is nonempty. -/
def litChars (l : List Char) : Bool :=
  !l.isEmpty && l.all fun c => isLinkChar c && (c.toLower == c)

def litsOK (lits : List (List Char)) : Bool := lits.all litChars

theorem m3u8Lits_ok : litsOK m3u8Lits = true := by decide

theorem streamLiveLits_ok : litsOK streamLiveLits = true := by decide

theorem notLink_toLower (c : Char) (h : isLinkChar c = false) : c.toLower = c := by
  simp only [isLinkChar, pyIsSpace, Bool.not_eq_false', Bool.or_eq_true,
    beq_iff_eq] at h
  rcases h with ((((((h | h) | h) | h) | h) | h) | h) | h <;> subst h <;> decide

theorem link_of_matchCI {c l : Char} (hl : isLinkChar l = true) (hlow : l.toLower = l)
    (h : c.toLower = l.toLower) : isLinkChar c = true := by
  cases hc : isLinkChar c with
  | true => rfl
  | false =>
    have hcl := notLink_toLower c hc
    rw [hcl, hlow] at h
    rw [h] at hc
    rw [hl] at hc
    exact absurd hc (by simp)

theorem matchLitCI_length {l cs : List Char} (h : matchLitCI l cs = true) :
    l.length ≤ cs.length := by
  induction l generalizing cs with
  | nil => simp
  | cons x xs ih =>
    cases cs with
    | nil => simp [matchLitCI] at h
    | cons c cs' =>
      simp only [matchLitCI, Bool.and_eq_true] at h
      simpa using ih h.2

theorem matchLitCI_congr {l cs ds : List Char}
    (h : cs.take l.length = ds.take l.length) :
    matchLitCI l cs = matchLitCI l ds := by
  induction l generalizing cs ds with
  | nil => simp [matchLitCI]
  | cons x xs ih =>
    cases cs with
    | nil =>
      cases ds with
      | nil => rfl
      | cons d ds' => simp at h
    | cons c cs' =>
      cases ds with
      | nil => simp at h
      | cons d ds' =>
        simp only [List.length_cons, List.take_succ_cons, List.cons.injEq] at h
        simp only [matchLitCI, h.1, ih h.2]

theorem matchLitCI_all_link {l cs : List Char}
    (hl : (l.all fun c => isLinkChar c && (c.toLower == c)) = true)
    (h : matchLitCI l cs = true) :
    ((cs.take l.length).all isLinkChar) = true := by
  induction l generalizing cs with
  | nil => simp
  | cons x xs ih =>
    cases cs with
    | nil => simp [matchLitCI] at h
    | cons c cs' =>
      simp only [List.all_cons, Bool.and_eq_true, beq_iff_eq] at hl
      simp only [matchLitCI, Bool.and_eq_true, beq_iff_eq] at h
      simp only [List.length_cons, List.take_succ_cons, List.all_cons,
        Bool.and_eq_true]
      exact ⟨link_of_matchCI hl.1.1 hl.1.2 h.1, ih hl.2 h.2⟩

/-! ## Lemmas: the greedy link-character run -/

theorem runLen_le (cs : List Char) : runLen cs ≤ cs.length := by
  induction cs with
  | nil => simp [runLen]
  | cons c cs' ih =>
    simp only [runLen, List.takeWhile_cons]
    cases h : isLinkChar c <;> simp_all [runLen]

theorem runLen_cons_true {c : Char} {cs : List Char} (h : isLinkChar c = true) :
    runLen (c :: cs) = runLen cs + 1 := by
  simp [runLen, List.takeWhile_cons, h]

theorem runLen_cons_false {c : Char} {cs : List Char} (h : isLinkChar c = false) :
    runLen (c :: cs) = 0 := by
  simp [runLen, List.takeWhile_cons, h]

theorem all_take_of_le_runLen {cs : List Char} {j : Nat} (h : j ≤ runLen cs) :
    ((cs.take j).all isLinkChar) = true := by
  induction cs generalizing j with
  | nil => simp
  | cons c cs' ih =>
    cases j with
    | zero => simp
    | succ j' =>
      cases hc : isLinkChar c with
      | false => rw [runLen_cons_false hc] at h; omega
      | true =>
        rw [runLen_cons_true hc] at h
        simp only [List.take_succ_cons, List.all_cons, hc, Bool.true_and]
        exact ih (by omega)

theorem runLen_ge_of_take_all {cs : List Char} {m : Nat}
    (h : ((cs.take m).all isLinkChar) = true) (hm : m ≤ cs.length) :
    m ≤ runLen cs := by
  induction cs generalizing m with
  | nil => simp at hm; omega
  | cons c cs' ih =>
    cases m with
    | zero => omega
    | succ m' =>
      simp only [List.take_succ_cons, List.all_cons, Bool.and_eq_true] at h
      rw [runLen_cons_true h.1]
      have := ih h.2 (by simpa using hm)
      omega

theorem runLen_split {cs : List Char} {k : Nat}
    (h : ((cs.take k).all isLinkChar) = true) (hk : k ≤ cs.length) :
    runLen cs = k + runLen (cs.drop k) := by
  induction cs generalizing k with
  | nil => simp at hk; simp [hk]
  | cons c cs' ih =>
    cases k with
    | zero => simp
    | succ k' =>
      simp only [List.take_succ_cons, List.all_cons, Bool.and_eq_true] at h
      rw [runLen_cons_true h.1, List.drop_succ_cons,
        ih h.2 (by simpa using hk)]
      omega

theorem runLen_append_all {xs t : List Char} (h : (xs.all isLinkChar) = true) :
    runLen (xs ++ t) = xs.length + runLen t := by
  induction xs with
  | nil => simp
  | cons x xs' ih =>
    simp only [List.all_cons, Bool.and_eq_true] at h
    simp only [List.cons_append, runLen_cons_true h.1, ih h.2]
    simp
    omega

/-! ## Lemmas: alternation and the greedy `X* alt X*` matcher -/

theorem litChars_of_mem {lits : List (List Char)} {l : List Char}
    (hOK : litsOK lits = true) (hl : l ∈ lits) :
    l ≠ [] ∧ (l.all fun c => isLinkChar c && (c.toLower == c)) = true := by
  simp only [litsOK, List.all_eq_true] at hOK
  have h := hOK l hl
  simp only [litChars, Bool.and_eq_true, Bool.not_eq_true',
    List.isEmpty_eq_false] at h
  exact ⟨h.1, h.2⟩

theorem matchAlts_some {lits : List (List Char)} {cs : List Char} {k : Nat}
    (h : matchAlts lits cs = some k) :
    ∃ l, l ∈ lits ∧ matchLitCI l cs = true ∧ k = l.length := by
  induction lits with
  | nil => simp [matchAlts] at h
  | cons x xs ih =>
    simp only [matchAlts] at h
    split at h
    · rename_i hm
      simp only [Option.some.injEq] at h
      exact ⟨x, List.mem_cons_self x xs, hm, h.symm⟩
    · obtain ⟨l, hl, hm, hk⟩ := ih h
      exact ⟨l, by simp [hl], hm, hk⟩

theorem matchAlts_isSome_of_mem {lits : List (List Char)} {cs l : List Char}
    (hl : l ∈ lits) (h : matchLitCI l cs = true) :
    ∃ k, matchAlts lits cs = some k := by
  induction lits with
  | nil => simp at hl
  | cons x xs ih =>
    simp only [matchAlts]
    cases hm : matchLitCI x cs with
    | true => exact ⟨x.length, by rw [if_pos rfl]⟩
    | false =>
      rw [if_neg (by simp [hm])]
      rcases List.mem_cons.mp hl with hx | hx
      · subst hx; rw [h] at hm; exact absurd hm (by simp)
      · exact ih hx

theorem matchAlts_nil_none {lits : List (List Char)} (hOK : litsOK lits = true) :
    matchAlts lits [] = none := by
  induction lits with
  | nil => rfl
  | cons x xs ih =>
    have hx := litChars_of_mem hOK (List.mem_cons_self x xs)
    have hOK' : litsOK xs = true := by
      simp only [litsOK, List.all_cons, Bool.and_eq_true] at hOK
      exact hOK.2
    cases x with
    | nil => exact absurd rfl hx.1
    | cons c cs => simp only [matchAlts, matchLitCI]; exact ih hOK'

/-- A literal that matches inside the greedy run stays inside the run. -/
theorem lit_in_run {l x : List Char} {j : Nat}
    (hlc : (l.all fun c => isLinkChar c && (c.toLower == c)) = true)
    (h : matchLitCI l (x.drop j) = true) (hj : j ≤ runLen x) :
    j + l.length ≤ runLen x := by
  have hlen : l.length ≤ (x.drop j).length := matchLitCI_length h
  have hxlen : j + l.length ≤ x.length := by
    rw [List.length_drop] at hlen
    have := runLen_le x
    omega
  apply runLen_ge_of_take_all _ hxlen
  rw [List.take_add, List.all_append, Bool.and_eq_true]
  exact ⟨all_take_of_le_runLen hj, matchLitCI_all_link hlc h⟩

theorem altStar_eq_some {lits : List (List Char)} {cs : List Char} {n : Nat}
    (hOK : litsOK lits = true) (h : altStar lits cs = some n) :
    n = runLen cs ∧ ∃ l, l ∈ lits ∧ matchLitCI l cs = true := by
  unfold altStar at h
  cases hma : matchAlts lits cs with
  | none => rw [hma] at h; simp at h
  | some k =>
    rw [hma] at h
    simp only [Option.some.injEq] at h
    obtain ⟨l, hl, hm, hk⟩ := matchAlts_some hma
    have hlc := (litChars_of_mem hOK hl).2
    have hall : ((cs.take k).all isLinkChar) = true := by
      rw [hk]; exact matchLitCI_all_link hlc hm
    have hklen : k ≤ cs.length := by
      rw [hk]; exact matchLitCI_length hm
    have hsplit := runLen_split hall hklen
    constructor
    · rw [← h, hsplit]; rfl
    · exact ⟨l, hl, hm⟩

theorem altStar_of_lit {lits : List (List Char)} {cs l : List Char}
    (hOK : litsOK lits = true) (hl : l ∈ lits) (h : matchLitCI l cs = true) :
    altStar lits cs = some (runLen cs) := by
  obtain ⟨k, hk⟩ := matchAlts_isSome_of_mem hl h
  have h2 : altStar lits cs = some (k + ((cs.drop k).takeWhile isLinkChar).length) := by
    unfold altStar
    rw [hk]
  have h3 := altStar_eq_some hOK h2
  rw [h2, h3.1]

theorem starAltStar_some {lits : List (List Char)} {cs : List Char} {n : Nat}
    (hOK : litsOK lits = true) (h : starAltStar lits cs = some n) :
    n = runLen cs ∧
      ∃ j l, l ∈ lits ∧ j ≤ runLen cs ∧ matchLitCI l (cs.drop j) = true := by
  induction cs generalizing n with
  | nil =>
    unfold starAltStar altStar at h
    rw [matchAlts_nil_none hOK] at h
    simp at h
  | cons c cs' ih =>
    unfold starAltStar at h
    cases hc : isLinkChar c with
    | true =>
      rw [hc] at h
      rw [if_pos rfl] at h
      cases hs : starAltStar lits cs' with
      | some n' =>
        rw [hs] at h
        simp only [Option.some.injEq] at h
        obtain ⟨hn', j, l, hl, hj, hm⟩ := ih hs
        refine ⟨by rw [← h, hn', runLen_cons_true hc], j + 1, l, hl, ?_, ?_⟩
        · rw [runLen_cons_true hc]; omega
        · simpa using hm
      | none =>
        rw [hs] at h
        obtain ⟨hn, l, hl, hm⟩ := altStar_eq_some hOK h
        exact ⟨hn, 0, l, hl, by omega, by simpa using hm⟩
    | false =>
      rw [hc] at h
      rw [if_neg Bool.false_ne_true] at h
      obtain ⟨hn, l, hl, hm⟩ := altStar_eq_some hOK h
      exact ⟨hn, 0, l, hl, by omega, by simpa using hm⟩

theorem starAltStar_of_lit {lits : List (List Char)} {cs l : List Char} {j : Nat}
    (hOK : litsOK lits = true) (hl : l ∈ lits) (hj : j ≤ runLen cs)
    (h : matchLitCI l (cs.drop j) = true) :
    starAltStar lits cs = some (runLen cs) := by
  induction cs generalizing j with
  | nil =>
    obtain ⟨hne, _⟩ := litChars_of_mem hOK hl
    cases l with
    | nil => exact absurd rfl hne
    | cons x xs => simp [matchLitCI] at h
  | cons c cs' ih =>
    have hlc := (litChars_of_mem hOK hl).2
    cases j with
    | zero =>
      simp only [List.drop_zero] at h
      have hc : isLinkChar c = true := by
        obtain ⟨hne, _⟩ := litChars_of_mem hOK hl
        cases l with
        | nil => exact absurd rfl hne
        | cons x xs =>
          simp only [matchLitCI, Bool.and_eq_true, beq_iff_eq] at h
          simp only [List.all_cons, Bool.and_eq_true, beq_iff_eq] at hlc
          exact link_of_matchCI hlc.1.1 hlc.1.2 h.1
      unfold starAltStar
      rw [hc]
      rw [if_pos rfl]
      cases hs : starAltStar lits cs' with
      | some n' =>
        have hn' := (starAltStar_some hOK hs).1
        rw [hn', runLen_cons_true hc]
      | none =>
        rw [altStar_of_lit hOK hl h]
    | succ j' =>
      have hc : isLinkChar c = true := by
        cases hcc : isLinkChar c with
        | true => rfl
        | false => rw [runLen_cons_false hcc] at hj; omega
      rw [runLen_cons_true hc] at hj
      have hrec := ih (j := j') (by omega) (by simpa using h)
      unfold starAltStar
      rw [hc]
      rw [if_pos rfl, hrec, runLen_cons_true hc]

/-! ## Lemmas: scheme and full-pattern matching -/

theorem matchScheme_cases {cs : List Char} {m : Nat} (h : matchScheme cs = some m) :
    (m = 8 ∧ matchLitCI httpsLit cs = true) ∨ (m = 7 ∧ matchLitCI httpLit cs = true) := by
  unfold matchScheme at h
  split at h
  · exact Or.inl ⟨by simpa using h.symm, by assumption⟩
  · split at h
    · exact Or.inr ⟨by simpa using h.symm, by assumption⟩
    · simp at h

theorem matchScheme_ge {cs : List Char} {m : Nat} (h : matchScheme cs = some m) :
    7 ≤ m := by
  rcases matchScheme_cases h with ⟨hm, _⟩ | ⟨hm, _⟩ <;> omega

theorem matchScheme_le {cs : List Char} {m : Nat} (h : matchScheme cs = some m) :
    m ≤ cs.length := by
  rcases matchScheme_cases h with ⟨hm, hl⟩ | ⟨hm, hl⟩ <;>
    have := matchLitCI_length hl <;> simp_all [httpsLit, httpLit]

theorem matchScheme_congr {cs ds : List Char} (h : cs.take 8 = ds.take 8) :
    matchScheme cs = matchScheme ds := by
  have h8 : matchLitCI httpsLit cs = matchLitCI httpsLit ds :=
    matchLitCI_congr (by simpa [httpsLit] using h)
  have h7t : cs.take 7 = ds.take 7 := by
    have : (cs.take 8).take 7 = (ds.take 8).take 7 := by rw [h]
    simpa [List.take_take] using this
  have h7 : matchLitCI httpLit cs = matchLitCI httpLit ds :=
    matchLitCI_congr (by simpa [httpLit] using h7t)
  unfold matchScheme
  rw [h8, h7]

theorem matchScheme_all_link {cs : List Char} {m : Nat}
    (h : matchScheme cs = some m) : ((cs.take m).all isLinkChar) = true := by
  rcases matchScheme_cases h with ⟨hm, hl⟩ | ⟨hm, hl⟩ <;> subst hm
  · exact matchLitCI_all_link (by decide) hl
  · exact matchLitCI_all_link (by decide) hl

theorem matchAt_none_of_scheme {lits : List (List Char)} {cs : List Char}
    (hms : matchScheme cs = none) : matchAt lits cs = none := by
  unfold matchAt
  rw [hms]

theorem matchAt_eq_of_scheme {lits : List (List Char)} {cs : List Char} {m : Nat}
    (hms : matchScheme cs = some m) :
    matchAt lits cs =
      match cs.drop m with
      | [] => none
      | c :: rest =>
        if isLinkChar c then
          match starAltStar lits rest with
          | some n => some (m + 1 + n)
          | none => none
        else none := by
  unfold matchAt
  rw [hms]

theorem matchAt_pos {lits : List (List Char)} {cs : List Char} {n : Nat}
    (h : matchAt lits cs = some n) : 1 ≤ n := by
  cases hms : matchScheme cs with
  | none => rw [matchAt_none_of_scheme hms] at h; simp at h
  | some m =>
    rw [matchAt_eq_of_scheme hms] at h
    split at h
    · simp at h
    · split at h
      · split at h
        · simp only [Option.some.injEq] at h; omega
        · simp at h
      · simp at h

/-- Structure of a successful anchored match: a scheme prefix, then the
whole maximal link-character run, inside which some alternation literal
occurs at an offset past the mandatory `[^\s'"]+` character. -/
theorem matchAt_char {lits : List (List Char)} {cs : List Char} {n : Nat}
    (hOK : litsOK lits = true) (h : matchAt lits cs = some n) :
    ∃ m, matchScheme cs = some m ∧ 1 ≤ runLen (cs.drop m) ∧
      n = m + runLen (cs.drop m) ∧
      ∃ j l, l ∈ lits ∧ m + 1 ≤ j ∧ matchLitCI l (cs.drop j) = true ∧
        j - m + l.length ≤ runLen (cs.drop m) := by
  cases hms : matchScheme cs with
  | none => rw [matchAt_none_of_scheme hms] at h; simp at h
  | some m =>
    rw [matchAt_eq_of_scheme hms] at h
    split at h
    · simp at h
    · rename_i c rest hd
      split at h
      · rename_i hc
        split at h
        · rename_i n2 hs
          simp only [Option.some.injEq] at h
          obtain ⟨hn2, j2, l, hl, hj2, hm2⟩ := starAltStar_some hOK hs
          have hrest : rest = cs.drop (m + 1) := by
            have hdd : (cs.drop m).drop 1 = cs.drop (m + 1) := by
              rw [List.drop_drop]
            rw [hd] at hdd
            simpa using hdd
          have hrun : runLen (cs.drop m) = runLen rest + 1 := by
            rw [hd, runLen_cons_true hc]
          refine ⟨m, rfl, by omega, by omega, m + 1 + j2, l, hl, by omega, ?_, ?_⟩
          · rw [← List.drop_drop, ← hrest]
            exact hm2
          · have hin := lit_in_run (litChars_of_mem hOK hl).2 (x := rest) (j := j2)
              hm2 hj2
            omega
        · simp at h
      · simp at h

/-- Converse: those parts force a successful match of exactly the
scheme-plus-run length. -/
theorem matchAt_of_parts {lits : List (List Char)} {cs l : List Char} {m j : Nat}
    (hOK : litsOK lits = true) (hms : matchScheme cs = some m)
    (hrun : 1 ≤ runLen (cs.drop m)) (hl : l ∈ lits) (hj : m + 1 ≤ j)
    (hlit : matchLitCI l (cs.drop j) = true)
    (hle : j - m ≤ runLen (cs.drop m)) :
    matchAt lits cs = some (m + runLen (cs.drop m)) := by
  rw [matchAt_eq_of_scheme hms]
  split
  · rename_i hd
    rw [hd] at hrun
    simp [runLen] at hrun
  · rename_i c rest hd
    rw [hd] at hrun hle ⊢
    have hc : isLinkChar c = true := by
      cases hcc : isLinkChar c with
      | true => rfl
      | false => rw [runLen_cons_false hcc] at hrun; omega
    have hrest : rest = cs.drop (m + 1) := by
      have hdd : (cs.drop m).drop 1 = cs.drop (m + 1) := by rw [List.drop_drop]
      rw [hd] at hdd
      simpa using hdd
    have hstar : starAltStar lits rest = some (runLen rest) := by
      apply starAltStar_of_lit hOK hl (j := j - (m + 1))
      · rw [runLen_cons_true hc] at hle
        omega
      · rw [hrest, List.drop_drop]
        have harith : m + 1 + (j - (m + 1)) = j := by omega
        rw [harith]
        exact hlit
    rw [if_pos hc, hstar, runLen_cons_true hc]
    show some (m + 1 + runLen rest) = some (m + (runLen rest + 1))
    exact congrArg some (by omega)

theorem matchAt_le {lits : List (List Char)} {cs : List Char} {n : Nat}
    (hOK : litsOK lits = true) (h : matchAt lits cs = some n) : n ≤ cs.length := by
  obtain ⟨m, hms, _, hn, _⟩ := matchAt_char hOK h
  have h1 := matchScheme_le hms
  have h2 := runLen_le (cs.drop m)
  rw [List.length_drop] at h2
  omega

/-- Every character of a matched string is a link character (in particular
no whitespace, newline, or quote). -/
theorem matchAt_take_all_link {lits : List (List Char)} {cs : List Char} {n : Nat}
    (hOK : litsOK lits = true) (h : matchAt lits cs = some n) :
    ((cs.take n).all isLinkChar) = true := by
  obtain ⟨m, hms, _, hn, _⟩ := matchAt_char hOK h
  subst hn
  rw [List.take_add, List.all_append, Bool.and_eq_true]
  refine ⟨matchScheme_all_link hms, ?_⟩
  exact all_take_of_le_runLen (Nat.le_refl _)

/-- A matched string, cut out of its context and placed before any other
text, still matches. -/
theorem matchAt_extend {lits : List (List Char)} {cs t : List Char} {n : Nat}
    (hOK : litsOK lits = true) (h : matchAt lits cs = some n) :
    ∃ n', matchAt lits (cs.take n ++ t) = some n' := by
  obtain ⟨m, hms, hrun, hn, j, l, hl, hj, hlit, hle⟩ := matchAt_char hOK h
  have hm8 : 8 ≤ n := by
    have := matchScheme_ge hms
    omega
  have hnlen : n ≤ cs.length := matchAt_le hOK h
  have hms' : matchScheme (cs.take n ++ t) = some m := by
    rw [← hms]
    apply matchScheme_congr
    rw [List.take_append_of_le_length (by simp; omega), List.take_take]
    simp [Nat.min_eq_left hm8]
  -- the run after the scheme inside the match
  have hrunlen : runLen (cs.drop m) = n - m := by omega
  have hmn : m ≤ n := by omega
  have hdrop : (cs.take n ++ t).drop m
      = (cs.drop m).take (n - m) ++ t := by
    rw [List.drop_append_of_le_length (by simp; omega), List.drop_take]
  have hallrun : (((cs.drop m).take (n - m)).all isLinkChar) = true := by
    rw [← hrunlen]
    exact all_take_of_le_runLen (Nat.le_refl _)
  have hrun' : runLen ((cs.take n ++ t).drop m)
      = (n - m) + runLen t := by
    rw [hdrop, runLen_append_all hallrun]
    congr 1
    rw [List.length_take]
    rw [List.length_drop]
    omega
  refine ⟨m + runLen ((cs.take n ++ t).drop m), ?_⟩
  apply matchAt_of_parts hOK hms' (by omega) hl hj _ (by omega)
  -- the literal still matches at offset j
  have hjn : j - m + l.length ≤ n - m := by omega
  have hlen2 : l.length ≤ n - j := by omega
  have hdj : ((cs.take n ++ t).drop j).take l.length
      = (cs.drop j).take l.length := by
    have hjlen : j ≤ n := by omega
    rw [List.drop_append_of_le_length (by simp; omega), List.drop_take]
    rw [List.take_append_of_le_length
      (by rw [List.length_take, List.length_drop]; omega)]
    rw [List.take_take, Nat.min_eq_left hlen2]
  rw [← hlit]
  exact matchLitCI_congr hdj

/-! ## Lemmas: the findall scan -/

theorem findAllF_mem {lits : List (List Char)} {fuel : Nat} {cs : List Char}
    {w : String} (hfuel : cs.length ≤ fuel) (hw : w ∈ findAllF lits fuel cs) :
    ∃ i n, matchAt lits (cs.drop i) = some n ∧
      w = String.mk ((cs.drop i).take n) := by
  induction fuel generalizing cs with
  | zero => simp [findAllF] at hw
  | succ fuel ih =>
    cases cs with
    | nil => simp [findAllF] at hw
    | cons c cs2 =>
      unfold findAllF at hw
      split at hw
      · rename_i n hm
        rcases List.mem_cons.mp hw with hw | hw
        · exact ⟨0, n, by simpa using hm, by simpa using hw⟩
        · have hpos := matchAt_pos hm
          have hfuel2 : ((c :: cs2).drop n).length ≤ fuel := by
            rw [List.length_drop]
            simp only [List.length_cons]
            simp only [List.length_cons] at hfuel
            omega
          obtain ⟨i2, n2, hm2, hw2⟩ := ih hfuel2 hw
          rw [List.drop_drop] at hm2 hw2
          exact ⟨n + i2, n2, hm2, hw2⟩
      · rename_i hm
        have hfuel2 : cs2.length ≤ fuel := by
          simp only [List.length_cons] at hfuel
          omega
        obtain ⟨i2, n2, hm2, hw2⟩ := ih hfuel2 hw
        rw [← List.drop_succ_cons (n := i2) (a := c)] at hm2 hw2
        exact ⟨i2 + 1, n2, hm2, hw2⟩

theorem findAllF_nil_of_no_match {lits : List (List Char)} {fuel : Nat}
    {cs : List Char} (h : ∀ i, matchAt lits (cs.drop i) = none) :
    findAllF lits fuel cs = [] := by
  induction fuel generalizing cs with
  | zero => rfl
  | succ fuel ih =>
    cases cs with
    | nil => rfl
    | cons c cs2 =>
      unfold findAllF
      have h0 : matchAt lits (c :: cs2) = none := by simpa using h 0
      rw [h0]
      exact ih fun i => by simpa [List.drop_succ_cons] using h (i + 1)

/-- The findall scan on a string with no match anywhere is empty. -/
theorem findall_nil_of_no_match {lits : List (List Char)} {s : String}
    (h : ∀ i, matchAt lits (s.data.drop i) = none) : findall lits s = [] :=
  findAllF_nil_of_no_match h

/-- Every string the findall scan returns is a full anchored match cut out
of the text. -/
theorem findall_mem {lits : List (List Char)} {s : String} {w : String}
    (hw : w ∈ findall lits s) :
    ∃ i n, matchAt lits (s.data.drop i) = some n ∧
      w = String.mk ((s.data.drop i).take n) :=
  findAllF_mem (by omega) hw

/-! ## Lemmas: `sorted(set(...))` -/

theorem charToNat_inj {a b : Char} (h : a.toNat = b.toNat) : a = b :=
  Char.eq_of_val_eq (UInt32.toNat.inj h)

theorem charsLt_cons_iff {a b : Char} {as bs : List Char} :
    charsLt (a :: as) (b :: bs) = true ↔
      (a.toNat < b.toNat ∨ (a.toNat = b.toNat ∧ charsLt as bs = true)) := by
  rw [show charsLt (a :: as) (b :: bs)
      = (if a.toNat < b.toNat then true
         else if b.toNat < a.toNat then false else charsLt as bs) from rfl]
  by_cases h1 : a.toNat < b.toNat
  · rw [if_pos h1]
    simp [h1]
  · rw [if_neg h1]
    by_cases h2 : b.toNat < a.toNat
    · rw [if_pos h2]
      constructor
      · intro h; simp at h
      · rintro (h | ⟨h, _⟩) <;> omega
    · rw [if_neg h2]
      constructor
      · intro h; exact Or.inr ⟨by omega, h⟩
      · rintro (h | ⟨_, h⟩)
        · omega
        · exact h

theorem charsLt_irrefl (a : List Char) : charsLt a a = false := by
  induction a with
  | nil => rfl
  | cons c cs ih =>
    cases h : charsLt (c :: cs) (c :: cs) with
    | false => rfl
    | true =>
      rcases charsLt_cons_iff.mp h with h1 | ⟨_, h2⟩
      · omega
      · rw [ih] at h2; exact absurd h2 (by simp)

theorem charsLt_trans {a b c : List Char} (h1 : charsLt a b = true)
    (h2 : charsLt b c = true) : charsLt a c = true := by
  induction a generalizing b c with
  | nil =>
    cases c with
    | nil => cases b <;> simp [charsLt] at h1 h2
    | cons c0 cs => rfl
  | cons a0 as ih =>
    cases b with
    | nil => simp [charsLt] at h1
    | cons b0 bs =>
      cases c with
      | nil => simp [charsLt] at h2
      | cons c0 cs =>
        rcases charsLt_cons_iff.mp h1 with hx | ⟨hx, hx2⟩ <;>
          rcases charsLt_cons_iff.mp h2 with hy | ⟨hy, hy2⟩
        · exact charsLt_cons_iff.mpr (Or.inl (by omega))
        · exact charsLt_cons_iff.mpr (Or.inl (by omega))
        · exact charsLt_cons_iff.mpr (Or.inl (by omega))
        · exact charsLt_cons_iff.mpr (Or.inr ⟨by omega, ih hx2 hy2⟩)

theorem charsLt_total {a b : List Char} (h1 : charsLt a b = false)
    (h2 : charsLt b a = false) : a = b := by
  induction a generalizing b with
  | nil =>
    cases b with
    | nil => rfl
    | cons b0 bs => simp [charsLt] at h1
  | cons a0 as ih =>
    cases b with
    | nil => simp [charsLt] at h2
    | cons b0 bs =>
      by_cases hab : a0.toNat < b0.toNat
      · rw [charsLt_cons_iff.mpr (Or.inl hab)] at h1
        exact absurd h1 (by simp)
      · by_cases hba : b0.toNat < a0.toNat
        · rw [charsLt_cons_iff.mpr (Or.inl hba)] at h2
          exact absurd h2 (by simp)
        · have he : a0.toNat = b0.toNat := by omega
          have hrec1 : charsLt as bs = false := by
            cases hr : charsLt as bs with
            | false => rfl
            | true =>
              rw [charsLt_cons_iff.mpr (Or.inr ⟨he, hr⟩)] at h1
              exact absurd h1 (by simp)
          have hrec2 : charsLt bs as = false := by
            cases hr : charsLt bs as with
            | false => rfl
            | true =>
              rw [charsLt_cons_iff.mpr (Or.inr ⟨he.symm, hr⟩)] at h2
              exact absurd h2 (by simp)
          rw [charToNat_inj he, ih hrec1 hrec2]

/-- The strict order on strings used by `sorted`. -/
def strLt (x y : String) : Prop := charsLt x.data y.data = true

theorem strLt_of_ne_of_not_lt {x y : String} (hne : x ≠ y)
    (h : charsLt x.data y.data = false) : strLt y x := by
  cases hr : charsLt y.data x.data with
  | true => exact hr
  | false =>
    have he := charsLt_total h hr
    exact absurd (String.ext he) hne

theorem mem_insertSorted {x a : String} {l : List String} :
    a ∈ insertSorted x l ↔ a = x ∨ a ∈ l := by
  induction l with
  | nil => simp [insertSorted]
  | cons y ys ih =>
    unfold insertSorted
    by_cases hxy : x = y
    · rw [if_pos hxy]
      subst hxy
      constructor
      · intro h; exact Or.inr h
      · rintro (h | h)
        · simp [h]
        · exact h
    · rw [if_neg hxy]
      by_cases hlt : charsLt x.data y.data
      · rw [if_pos hlt]
        simp only [List.mem_cons]
      · rw [if_neg hlt]
        simp only [List.mem_cons, ih]
        tauto

theorem pairwise_insertSorted {x : String} {l : List String}
    (h : l.Pairwise strLt) : (insertSorted x l).Pairwise strLt := by
  induction l with
  | nil => simp [insertSorted, List.Pairwise]
  | cons y ys ih =>
    have hy : ∀ a ∈ ys, strLt y a := (List.pairwise_cons.mp h).1
    have hys : ys.Pairwise strLt := (List.pairwise_cons.mp h).2
    unfold insertSorted
    by_cases hxy : x = y
    · rw [if_pos hxy]; exact h
    · rw [if_neg hxy]
      by_cases hlt : charsLt x.data y.data
      · rw [if_pos hlt]
        refine List.pairwise_cons.mpr ⟨?_, h⟩
        intro a ha
        rcases List.mem_cons.mp ha with ha | ha
        · subst ha; exact hlt
        · exact charsLt_trans hlt (hy a ha)
      · rw [if_neg hlt]
        refine List.pairwise_cons.mpr ⟨?_, ih hys⟩
        intro a ha
        rcases mem_insertSorted.mp ha with ha | ha
        · subst ha
          exact strLt_of_ne_of_not_lt hxy (by simpa using hlt)
        · exact hy a ha

theorem pairwise_sortDedup (l : List String) : (sortDedup l).Pairwise strLt := by
  induction l with
  | nil => simp [sortDedup]
  | cons x xs ih => exact pairwise_insertSorted ih

theorem mem_sortDedup {a : String} {l : List String} :
    a ∈ sortDedup l ↔ a ∈ l := by
  induction l with
  | nil => simp [sortDedup]
  | cons x xs ih =>
    show a ∈ insertSorted x (sortDedup xs) ↔ _
    rw [mem_insertSorted, ih]
    simp

theorem nodup_sortDedup (l : List String) : (sortDedup l).Nodup := by
  apply List.Pairwise.imp _ (pairwise_sortDedup l)
  intro a b hab
  intro he
  subst he
  unfold strLt at hab
  rw [charsLt_irrefl] at hab
  exact Bool.false_ne_true hab

/-! ## Lemmas: the text rendering -/

theorem skipTag_suffix (cs : List Char) : skipTag cs <:+ cs := by
  induction cs with
  | nil => exact List.suffix_refl []
  | cons c cs' ih =>
    unfold skipTag
    by_cases hc : c = '>'
    · rw [if_pos hc]
      exact List.suffix_cons c cs'
    · rw [if_neg hc]
      exact ih.trans (List.suffix_cons c cs')

theorem textSegmentsF_ne_nil (fuel : Nat) (cs : List Char) :
    textSegmentsF fuel cs ≠ [] := by
  cases fuel with
  | zero => simp [textSegmentsF]
  | succ f =>
    cases cs with
    | nil => simp [textSegmentsF]
    | cons c cs2 =>
      unfold textSegmentsF
      by_cases hc : c = '<'
      · rw [if_pos hc]; simp
      · rw [if_neg hc]
        cases textSegmentsF f cs2 <;> simp

theorem textSegmentsF_head_pref {fuel : Nat} {cs s : List Char}
    {rest : List (List Char)} (h : textSegmentsF fuel cs = s :: rest) :
    s <+: cs := by
  induction fuel generalizing cs s rest with
  | zero =>
    simp only [textSegmentsF, List.cons.injEq] at h
    rw [← h.1]
    exact List.nil_prefix
  | succ f ih =>
    cases cs with
    | nil =>
      have h2 : ([[]] : List (List Char)) = s :: rest := h
      injection h2 with h1 _
      rw [← h1]
    | cons c cs2 =>
      unfold textSegmentsF at h
      by_cases hc : c = '<'
      · rw [if_pos hc] at h
        simp only [List.cons.injEq] at h
        rw [← h.1]
        exact List.nil_prefix
      · rw [if_neg hc] at h
        cases ht : textSegmentsF f cs2 with
        | nil => exact absurd ht (textSegmentsF_ne_nil f cs2)
        | cons s2 r2 =>
          rw [ht] at h
          simp only [List.cons.injEq] at h
          rw [← h.1]
          exact List.cons_prefix_cons.mpr ⟨rfl, ih ht⟩

theorem textSegmentsF_mem_infix {fuel : Nat} {cs seg : List Char}
    (h : seg ∈ textSegmentsF fuel cs) : seg <:+: cs := by
  induction fuel generalizing cs with
  | zero =>
    simp only [textSegmentsF, List.mem_singleton] at h
    rw [h]
    exact List.nil_infix
  | succ f ih =>
    cases cs with
    | nil =>
      have h2 : seg ∈ ([[]] : List (List Char)) := h
      rw [List.mem_singleton] at h2
      rw [h2]
    | cons c cs2 =>
      unfold textSegmentsF at h
      by_cases hc : c = '<'
      · rw [if_pos hc] at h
        rcases List.mem_cons.mp h with h | h
        · rw [h]; exact List.nil_infix
        · exact ((ih h).trans (skipTag_suffix cs2).isInfix).trans
            (List.suffix_cons c cs2).isInfix
      · rw [if_neg hc] at h
        cases ht : textSegmentsF f cs2 with
        | nil => exact absurd ht (textSegmentsF_ne_nil f cs2)
        | cons s2 r2 =>
          rw [ht] at h
          rcases List.mem_cons.mp h with h | h
          · rw [h]
            exact (List.cons_prefix_cons.mpr ⟨rfl, textSegmentsF_head_pref ht⟩).isInfix
          · have : seg ∈ textSegmentsF f cs2 := by rw [ht]; simp [h]
            exact (ih this).trans (List.suffix_cons c cs2).isInfix

theorem joinSp_cons (s : List Char) {r : List (List Char)} (hr : r ≠ []) :
    joinSp (s :: r) = s ++ ' ' :: joinSp r := by
  cases r with
  | nil => exact absurd rfl hr
  | cons r0 rs => rfl

theorem pref_split {w a b : List Char} {ch : Char}
    (h : w <+: a ++ ch :: b) (hch : ch ∉ w) : w <+: a := by
  induction a generalizing w with
  | nil =>
    cases w with
    | nil => exact List.nil_prefix
    | cons w0 ws =>
      obtain ⟨hw0, _⟩ := List.cons_prefix_cons.mp h
      rw [hw0] at hch
      exact absurd (List.mem_cons_self ch ws) hch
  | cons a0 as ih =>
    cases w with
    | nil => exact List.nil_prefix
    | cons w0 ws =>
      obtain ⟨hw0, hws⟩ := List.cons_prefix_cons.mp h
      have hch' : ch ∉ ws := fun hm => hch (List.mem_cons_of_mem w0 hm)
      exact List.cons_prefix_cons.mpr ⟨hw0, ih hws hch'⟩

theorem infix_split {w a b : List Char} {ch : Char}
    (h : w <:+: a ++ ch :: b) (hch : ch ∉ w) : w <:+: a ∨ w <:+: b := by
  induction a generalizing w with
  | nil =>
    obtain ⟨u, v, huv⟩ := h
    cases u with
    | nil =>
      cases w with
      | nil => exact Or.inr List.nil_infix
      | cons w0 ws =>
        simp only [List.nil_append, List.cons_append, List.cons.injEq] at huv
        rw [huv.1] at hch
        exact absurd (List.mem_cons_self ch ws) hch
    | cons u0 us =>
      simp only [List.cons_append, List.nil_append, List.cons.injEq] at huv
      exact Or.inr ⟨us, v, huv.2⟩
  | cons a0 as ih =>
    obtain ⟨u, v, huv⟩ := h
    cases u with
    | nil =>
      cases w with
      | nil => exact Or.inl List.nil_infix
      | cons w0 ws =>
        simp only [List.nil_append, List.cons_append, List.cons.injEq] at huv
        have hpre : ws <+: as ++ ch :: b := ⟨v, huv.2⟩
        have hch' : ch ∉ ws := fun hm => hch (List.mem_cons_of_mem w0 hm)
        have := pref_split hpre hch'
        exact Or.inl (List.IsPrefix.isInfix
          (List.cons_prefix_cons.mpr ⟨huv.1, this⟩))
    | cons u0 us =>
      simp only [List.cons_append, List.cons.injEq] at huv
      have : w <:+: as ++ ch :: b := ⟨us, v, huv.2⟩
      rcases ih this hch with hl | hr
      · exact Or.inl (hl.trans (List.suffix_cons a0 as).isInfix)
      · exact Or.inr hr

theorem infix_joinSp {w : List Char} {segs : List (List Char)}
    (hsegs : segs ≠ []) (h : w <:+: joinSp segs) (hsp : ' ' ∉ w) :
    ∃ seg, seg ∈ segs ∧ w <:+: seg := by
  induction segs with
  | nil => exact absurd rfl hsegs
  | cons s r ih =>
    cases hr : r with
    | nil =>
      subst hr
      exact ⟨s, List.mem_cons_self s [], h⟩
    | cons r0 rs =>
      rw [hr] at h ih
      rw [joinSp_cons s (by simp)] at h
      rcases infix_split h hsp with hl | hrt
      · exact ⟨s, List.mem_cons_self s _, hl⟩
      · obtain ⟨seg, hm, hi⟩ := ih (by simp) hrt
        exact ⟨seg, List.mem_cons_of_mem s hm, hi⟩

theorem no_space_of_all_link {w : List Char} (h : (w.all isLinkChar) = true) :
    ' ' ∉ w := by
  intro hm
  have := List.all_eq_true.mp h ' ' hm
  exact absurd this (by decide)

theorem matchAt_nil (lits : List (List Char)) : matchAt lits [] = none :=
  matchAt_none_of_scheme rfl

/-- If the raw HTML has no match at any position, neither does its
`get_text` rendering: a match is space-free, hence lies inside one text
segment, which is a contiguous substring of the raw HTML where a match
would also start. -/
theorem get_text_no_match {lits : List (List Char)} {html : String}
    (hOK : litsOK lits = true)
    (h : ∀ i, matchAt lits (html.data.drop i) = none) :
    ∀ i, matchAt lits ((get_text html).data.drop i) = none := by
  intro i
  cases hm : matchAt lits ((get_text html).data.drop i) with
  | none => rfl
  | some n =>
    exfalso
    set g : List Char := (get_text html).data with hg
    set w : List Char := (g.drop i).take n with hw
    have hall : (w.all isLinkChar) = true := matchAt_take_all_link hOK hm
    have hsp : ' ' ∉ w := no_space_of_all_link hall
    have hinf : w <:+: g := by
      refine ⟨g.take i, (g.drop i).drop n, ?_⟩
      rw [List.append_assoc, hw, List.take_append_drop, List.take_append_drop]
    have hjoin : g = joinSp (textSegmentsF (html.data.length + 1) html.data) := rfl
    rw [hjoin] at hinf
    obtain ⟨seg, hmem, hwseg⟩ :=
      infix_joinSp (textSegmentsF_ne_nil _ _) hinf hsp
    have hseg : seg <:+: html.data := textSegmentsF_mem_infix hmem
    obtain ⟨u, v, huv⟩ := hwseg.trans hseg
    have hdropu : html.data.drop u.length = w ++ v := by
      rw [← huv, List.append_assoc, List.drop_left]
    obtain ⟨n', hn'⟩ := matchAt_extend hOK hm (t := v)
    rw [← hw] at hn'
    rw [← hdropu] at hn'
    rw [h u.length] at hn'
    exact Option.noConfusion hn'

/-! ## Lemmas: extraction results -/

/-- Every extracted link is a full anchored match of one of the two
patterns, cut out of one of the two scanned texts. -/
theorem extract_mem {html w : String} (hw : w ∈ extract_stream_links html) :
    ∃ lits cs n, (lits = m3u8Lits ∨ lits = streamLiveLits) ∧
      matchAt lits cs = some n ∧ w = String.mk (cs.take n) := by
  unfold extract_stream_links at hw
  rw [mem_sortDedup] at hw
  rw [List.mem_append, List.mem_append, List.mem_append] at hw
  rcases hw with (hw | hw) | (hw | hw) <;>
    obtain ⟨i, n, hm, hww⟩ := findall_mem hw
  · exact ⟨m3u8Lits, _, n, Or.inl rfl, hm, hww⟩
  · exact ⟨streamLiveLits, _, n, Or.inr rfl, hm, hww⟩
  · exact ⟨m3u8Lits, _, n, Or.inl rfl, hm, hww⟩
  · exact ⟨streamLiveLits, _, n, Or.inr rfl, hm, hww⟩

theorem matchAt_scheme_le {lits : List (List Char)} {cs : List Char} {n : Nat}
    (h : matchAt lits cs = some n) :
    ∃ m, matchScheme cs = some m ∧ m + 1 ≤ n := by
  cases hms : matchScheme cs with
  | none => rw [matchAt_none_of_scheme hms] at h; simp at h
  | some m =>
    rw [matchAt_eq_of_scheme hms] at h
    split at h
    · simp at h
    · split at h
      · split at h
        · simp only [Option.some.injEq] at h
          exact ⟨m, rfl, by omega⟩
        · simp at h
      · simp at h

/-- A matched string starts with `http://` or `https://`
(case-insensitively). -/
theorem matchAt_isHttpUrl {lits : List (List Char)} {cs : List Char} {n : Nat}
    (h : matchAt lits cs = some n) :
    isHttpUrl (String.mk (cs.take n)) = true := by
  obtain ⟨m, hms, hmn⟩ := matchAt_scheme_le h
  unfold isHttpUrl
  rcases matchScheme_cases hms with ⟨hm8, hl⟩ | ⟨hm7, hl⟩
  · have : matchLitCI httpsLit (cs.take n) = true := by
      rw [← hl]
      apply matchLitCI_congr
      rw [List.take_take]
      rw [Nat.min_eq_left (by simp [httpsLit]; omega)]
    simp [this]
  · have : matchLitCI httpLit (cs.take n) = true := by
      rw [← hl]
      apply matchLitCI_congr
      rw [List.take_take]
      rw [Nat.min_eq_left (by simp [httpLit]; omega)]
    simp [this]

/-- Inside a matched string, some alternation literal occurs, followed only
by link characters. -/
theorem matchAt_lit_in_take {lits : List (List Char)} {cs : List Char} {n : Nat}
    (hOK : litsOK lits = true) (h : matchAt lits cs = some n) :
    ∃ j l, l ∈ lits ∧ matchLitCI l ((cs.take n).drop j) = true ∧
      (((cs.take n).drop (j + l.length)).all isLinkChar) = true := by
  obtain ⟨m, hms, hrun, hn, j, l, hl, hj, hlit, hle⟩ := matchAt_char hOK h
  have hjl : j + l.length ≤ n := by omega
  refine ⟨j, l, hl, ?_, ?_⟩
  · rw [← hlit]
    apply matchLitCI_congr
    rw [List.drop_take, List.take_take, Nat.min_eq_left (by omega)]
  · have hall := matchAt_take_all_link hOK h
    rw [List.all_eq_true] at hall ⊢
    intro c hc
    exact hall c (List.mem_of_mem_drop hc)

theorem hasM3u8Suffix_of {xs : List Char} {j : Nat}
    (hm : matchLitCI ['.', 'm', '3', 'u', '8'] (xs.drop j) = true)
    (hall : ((xs.drop (j + 5)).all isLinkChar) = true) :
    hasM3u8Suffix xs = true := by
  induction j generalizing xs with
  | zero =>
    rw [List.drop_zero] at hm
    cases xs with
    | nil => simp [matchLitCI] at hm
    | cons c cs =>
      unfold hasM3u8Suffix
      rw [hm]
      have h5 : ((c :: cs).drop 5).all isLinkChar = true := by
        simpa using hall
      rw [h5]
      simp
  | succ j' ih =>
    cases xs with
    | nil => simp [matchLitCI] at hm
    | cons c cs =>
      have hm' : matchLitCI ['.', 'm', '3', 'u', '8'] (cs.drop j') = true := by
        simpa [List.drop_succ_cons] using hm
      have hall' : ((cs.drop (j' + 5)).all isLinkChar) = true := by
        have : (c :: cs).drop (j' + 1 + 5) = cs.drop (j' + 5) := by
          rw [show j' + 1 + 5 = (j' + 5) + 1 by omega, List.drop_succ_cons]
        rw [this] at hall
        exact hall
      unfold hasM3u8Suffix
      rw [ih hm' hall']
      simp

theorem hasStreamLive_of {xs : List Char} {j : Nat}
    (hm : matchLitCI ['/', 's', 't', 'r', 'e', 'a', 'm'] (xs.drop j) = true ∨
      matchLitCI ['/', 'l', 'i', 'v', 'e'] (xs.drop j) = true) :
    hasStreamLiveSegment xs = true := by
  induction j generalizing xs with
  | zero =>
    rw [List.drop_zero] at hm
    cases xs with
    | nil => rcases hm with hm | hm <;> simp [matchLitCI] at hm
    | cons c cs =>
      unfold hasStreamLiveSegment
      rcases hm with hm | hm <;> rw [hm] <;> simp
  | succ j' ih =>
    cases xs with
    | nil => rcases hm with hm | hm <;> simp [matchLitCI] at hm
    | cons c cs =>
      have hm' : matchLitCI ['/', 's', 't', 'r', 'e', 'a', 'm'] (cs.drop j') = true ∨
          matchLitCI ['/', 'l', 'i', 'v', 'e'] (cs.drop j') = true := by
        rcases hm with hm | hm
        · exact Or.inl (by simpa [List.drop_succ_cons] using hm)
        · exact Or.inr (by simpa [List.drop_succ_cons] using hm)
      unfold hasStreamLiveSegment
      rw [ih hm']
      simp

theorem matchAt_m3u8_shape {cs : List Char} {n : Nat}
    (h : matchAt m3u8Lits cs = some n) : hasM3u8Suffix (cs.take n) = true := by
  obtain ⟨j, l, hl, hlit, hall⟩ := matchAt_lit_in_take m3u8Lits_ok h
  have hl5 : l = ['.', 'm', '3', 'u', '8'] := by
    simpa [m3u8Lits] using hl
  subst hl5
  apply hasM3u8Suffix_of hlit
  simpa using hall

theorem matchAt_streamlive_shape {cs : List Char} {n : Nat}
    (h : matchAt streamLiveLits cs = some n) :
    hasStreamLiveSegment (cs.take n) = true := by
  obtain ⟨j, l, hl, hlit, _⟩ := matchAt_lit_in_take streamLiveLits_ok h
  rcases show l = ['/', 's', 't', 'r', 'e', 'a', 'm'] ∨ l = ['/', 'l', 'i', 'v', 'e'] by
      simpa [streamLiveLits] using hl with h7 | h5
  · subst h7
    exact hasStreamLive_of (Or.inl hlit)
  · subst h5
    exact hasStreamLive_of (Or.inr hlit)

/-! ## Lemmas: the build pipeline -/

theorem digitChar_range {d : Nat} (hd : d < 10) :
    48 ≤ (Char.ofNat (48 + d)).toNat ∧ (Char.ofNat (48 + d)).toNat ≤ 57 := by
  interval_cases d <;> exact ⟨by decide, by decide⟩

theorem decDigits_range {fuel n : Nat} :
    ∀ c ∈ decDigits fuel n, 48 ≤ c.toNat ∧ c.toNat ≤ 57 := by
  induction fuel generalizing n with
  | zero => simp [decDigits]
  | succ fuel ih =>
    intro c hc
    unfold decDigits at hc
    by_cases hn : n < 10
    · rw [if_pos hn] at hc
      rw [List.mem_singleton] at hc
      subst hc
      exact digitChar_range hn
    · rw [if_neg hn] at hc
      rcases List.mem_append.mp hc with hc | hc
      · exact ih c hc
      · rw [List.mem_singleton] at hc
        subst hc
        exact digitChar_range (Nat.mod_lt n (by omega))

theorem natToStr_no_newline (n : Nat) : '\n' ∉ (natToStr n).data := by
  intro hm
  have := decDigits_range '\n' hm
  revert this
  decide

theorem enumerateFrom_mem_snd {α : Type} {k : Nat} {l : List α} {p : Nat × α}
    (h : p ∈ enumerateFrom k l) : p.2 ∈ l := by
  induction l generalizing k with
  | nil => simp [enumerateFrom] at h
  | cons a as ih =>
    unfold enumerateFrom at h
    rcases List.mem_cons.mp h with h | h
    · rw [h]; exact List.mem_cons_self a as
    · exact List.mem_cons_of_mem a (ih h)

/-- Every entry an `.ok` build returns comes from some source and some
extracted link of its fetched page, formatted by `format_playlist_entry`. -/
theorem buildEntries_ok_mem {http : String → HttpOutcome} {sources : List Source}
    {es : List String} {e : String} (hb : buildEntries http sources = .ok es)
    (he : e ∈ es) :
    ∃ s, s ∈ sources ∧ ∃ i link html,
      fetch_html http s.url = .ok html ∧ link ∈ extract_stream_links html ∧
      e = format_playlist_entry (s.name ++ " " ++ natToStr i) link := by
  induction sources generalizing es with
  | nil =>
    simp only [buildEntries, Except.ok.injEq] at hb
    rw [← hb] at he
    simp at he
  | cons s rest ih =>
    unfold buildEntries at hb
    cases hf : fetch_html http s.url with
    | error err => rw [hf] at hb; simp at hb
    | ok html =>
      rw [hf] at hb
      cases hrec : buildEntries http rest with
      | error err => rw [hrec] at hb; simp at hb
      | ok more =>
        rw [hrec] at hb
        simp only [Except.ok.injEq] at hb
        rw [← hb] at he
        rcases List.mem_append.mp he with he | he
        · unfold sourceEntries at he
          obtain ⟨p, hp, hpe⟩ := List.mem_map.mp he
          exact ⟨s, List.mem_cons_self s rest, p.1, p.2, html, hf,
            enumerateFrom_mem_snd hp, hpe.symm⟩
        · obtain ⟨s2, hs2, hrest⟩ := ih hrec he
          exact ⟨s2, List.mem_cons_of_mem s hs2, hrest⟩

/-- A build with an erroring source fetch errors as a whole. -/
theorem buildEntries_error_of_mem {http : String → HttpOutcome}
    {sources : List Source} {s : Source} {e : TransportError}
    (hs : s ∈ sources) (hf : fetch_html http s.url = .error e) :
    ∃ e2, buildEntries http sources = .error e2 := by
  induction sources with
  | nil => simp at hs
  | cons s0 rest ih =>
    unfold buildEntries
    cases hf0 : fetch_html http s0.url with
    | error err => exact ⟨err, rfl⟩
    | ok html =>
      rcases List.mem_cons.mp hs with hs | hs
      · rw [hs] at hf
        rw [hf] at hf0
        exact absurd hf0 (by simp)
      · obtain ⟨e2, he2⟩ := ih hs
        rw [he2]
        exact ⟨e2, rfl⟩

/-- A build over sources whose pages all fetch fine and yield no links
returns no entries. -/
theorem buildEntries_no_links {http : String → HttpOutcome}
    {sources : List Source}
    (h : ∀ s ∈ sources, ∃ body, fetch_html http s.url = .ok body ∧
      extract_stream_links body = []) :
    buildEntries http sources = .ok [] := by
  induction sources with
  | nil => rfl
  | cons s rest ih =>
    obtain ⟨body, hf, hempty⟩ := h s (List.mem_cons_self s rest)
    unfold buildEntries
    rw [hf, ih fun s2 hs2 => h s2 (List.mem_cons_of_mem s hs2)]
    show Except.ok (sourceEntries s (extract_stream_links body) ++ []) = _
    rw [hempty]
    rfl

theorem build_playlist_ok {http : String → HttpOutcome} {sources : List Source}
    {es : List String} (h : buildEntries http sources = .ok es) :
    build_playlist http sources = .ok ("#EXTM3U" :: es) := by
  unfold build_playlist
  rw [h]

theorem build_playlist_error {http : String → HttpOutcome} {sources : List Source}
    {e : TransportError} (h : buildEntries http sources = .error e) :
    build_playlist http sources = .error e := by
  unfold build_playlist
  rw [h]

/-! ## Claim theorems -/

def srcA : Source := ⟨"A", "http://site.a/page"⟩

def srcB : Source := ⟨"B", "http://site.b/page"⟩

/-- Source A's page lists L2 = `http://b.example/s.m3u8` before
L1 = `http://a.example/s.m3u8` (unsorted). -/
def htmlA : String := "http://b.example/s.m3u8 http://a.example/s.m3u8"

def htmlB : String := "<p>no links here</p>"

def httpC1 : String → HttpOutcome := fun u =>
  if u = "http://site.a/page" then .response 200 htmlA
  else if u = "http://site.b/page" then .response 200 htmlB
  else .connectionFailure

/-- C1: for two sources A and B where A's page yields links L2 and L1
(in that unsorted order) and B's page yields none, `build_playlist` returns
exactly `["#EXTM3U", "#EXTINF:-1, A 1\nL1", "#EXTINF:-1, A 2\nL2"]`:
the header is element zero, links are sorted lexicographically before being
indexed from 1, each entry is the two-line string
`#EXTINF:-1, <name> <index>\n<link>`, and B contributes nothing. -/
theorem C1_build_ordering :
    build_playlist httpC1 [srcA, srcB] =
      Except.ok ["#EXTM3U",
        "#EXTINF:-1, A 1\nhttp://a.example/s.m3u8",
        "#EXTINF:-1, A 2\nhttp://b.example/s.m3u8"] := by
  decide

/-- C2: for every HTML input, `extract_stream_links` returns a sequence that
is strictly sorted in code-point lexicographic order, duplicate-free, and
(being a pure function) identical on a second call. -/
theorem C2_extract_sorted_dedup_deterministic (html : String) :
    (extract_stream_links html).Pairwise strLt ∧
    (extract_stream_links html).Nodup ∧
    extract_stream_links html = extract_stream_links html :=
  ⟨pairwise_sortDedup _, nodup_sortDedup _, rfl⟩

/-- C3: if the fetch of the second of three sources raises a transport
error, the error propagates out of `build_playlist` (so all accumulated
entries are discarded) and the run writes nothing: the filesystem is left
exactly as it was. -/
theorem C3_fail_fast (http : String → HttpOutcome) (s1 s2 s3 : Source)
    (fs : String → Option String) (e : TransportError)
    (h : fetch_html http s2.url = Except.error e) :
    (∃ e2, build_playlist http [s1, s2, s3] = Except.error e2) ∧
    main_run http [s1, s2, s3] fs = fs := by
  obtain ⟨e2, he2⟩ := buildEntries_error_of_mem (show s2 ∈ [s1, s2, s3] by simp) h
  refine ⟨⟨e2, build_playlist_error he2⟩, ?_⟩
  unfold main_run
  rw [build_playlist_error he2]

def srcX : Source := ⟨"X", "http://three.example/a"⟩

def srcY : Source := ⟨"Y", "http://three.example/b"⟩

def srcZ : Source := ⟨"Z", "http://three.example/c"⟩

def httpC3 : String → HttpOutcome := fun u =>
  if u = "http://three.example/b" then HttpOutcome.timeout
  else HttpOutcome.response 200 "see http://ok.example/live/x"

def fsEmpty : String → Option String := fun _ => none

/-- Witness for C3 at a concrete oracle where the second source times out. -/
theorem C3_fail_fast_witness :
    fetch_html httpC3 srcY.url = Except.error TransportError.timeout ∧
    main_run httpC3 [srcX, srcY, srcZ] fsEmpty = fsEmpty := by
  have hf : fetch_html httpC3 srcY.url = Except.error TransportError.timeout := by
    decide
  exact ⟨hf, (C3_fail_fast httpC3 srcX srcY srcZ fsEmpty TransportError.timeout hf).2⟩

/-- C4: every extracted link starts with `http://` or `https://`
(case-insensitively, as the patterns are case-insensitive) and has one of
the two accepted shapes: a `.m3u8` occurrence followed only by
non-whitespace/non-quote characters (so it ends in `.m3u8` up to such
characters), or a `/stream` or `/live` segment; nothing outside these
shapes is returned. -/
theorem C4_link_shapes (html w : String) (hw : w ∈ extract_stream_links html) :
    isHttpUrl w = true ∧
    (hasM3u8Suffix w.data = true ∨ hasStreamLiveSegment w.data = true) := by
  obtain ⟨lits, cs, n, hcase, hm, hww⟩ := extract_mem hw
  subst hww
  refine ⟨matchAt_isHttpUrl hm, ?_⟩
  rcases hcase with h | h <;> subst h
  · exact Or.inl (matchAt_m3u8_shape hm)
  · exact Or.inr (matchAt_streamlive_shape hm)

/-- Witness for C4 on a concrete page and its one extracted link. -/
theorem C4_link_shapes_witness :
    isHttpUrl "http://a.example/live/x" = true ∧
    (hasM3u8Suffix "http://a.example/live/x".data = true ∨
     hasStreamLiveSegment "http://a.example/live/x".data = true) :=
  C4_link_shapes "see http://a.example/live/x now" "http://a.example/live/x"
    (by decide)

def http304 : String → HttpOutcome := fun _ => HttpOutcome.response 304 "cached body"

/-- C5 counterexample: the claim says the body is returned *iff* the status
is 2xx, and that any non-2xx status signals a transport error; but on a 304
response (not 2xx) `fetch_html` returns the body, because
`raise_for_status` raises only for 4xx/5xx. -/
theorem C5_counterexample :
    fetch_html http304 "http://any.example/" = Except.ok "cached body" ∧
    ¬(200 ≤ 304 ∧ 304 < 300) := by
  exact ⟨by decide, by omega⟩

theorem fetch_html_response {http : String → HttpOutcome} {url : String}
    {status : Nat} {body : String} (h : http url = .response status body) :
    fetch_html http url =
      match raise_for_status status with
      | some e => Except.error e
      | none => Except.ok body := by
  unfold fetch_html
  rw [h]

/-- C5 amended: `fetch_html` returns the response body exactly when the
oracle yields a final response whose status is outside 400–599 (so 3xx
statuses that surface, such as 304, also return their body); it signals a
transport error for a network failure, a timeout, or a 4xx/5xx status. -/
theorem C5_fetch_status (http : String → HttpOutcome) (url body : String) :
    (fetch_html http url = Except.ok body ↔
      ∃ status, http url = HttpOutcome.response status body ∧
        ¬(400 ≤ status ∧ status < 600)) ∧
    (http url = HttpOutcome.connectionFailure →
      fetch_html http url = Except.error TransportError.connectionFailure) ∧
    (http url = HttpOutcome.timeout →
      fetch_html http url = Except.error TransportError.timeout) ∧
    (∀ status b, http url = HttpOutcome.response status b →
      400 ≤ status → status < 600 →
      fetch_html http url = Except.error (TransportError.httpError status)) := by
  refine ⟨?_, ?_, ?_, ?_⟩
  · constructor
    · intro h
      cases ho : http url with
      | connectionFailure => rw [show fetch_html http url = Except.error
          TransportError.connectionFailure by unfold fetch_html; rw [ho]] at h; simp at h
      | timeout => rw [show fetch_html http url = Except.error
          TransportError.timeout by unfold fetch_html; rw [ho]] at h; simp at h
      | response status b =>
        rw [fetch_html_response ho] at h
        unfold raise_for_status at h
        by_cases hs : 400 ≤ status ∧ status < 600
        · rw [if_pos hs] at h; simp at h
        · rw [if_neg hs] at h
          simp only [Except.ok.injEq] at h
          exact ⟨status, by rw [h], hs⟩
    · rintro ⟨status, ho, hs⟩
      rw [fetch_html_response ho]
      unfold raise_for_status
      rw [if_neg hs]
  · intro ho
    unfold fetch_html
    rw [ho]
  · intro ho
    unfold fetch_html
    rw [ho]
  · intro status b ho h4 h6
    rw [fetch_html_response ho]
    unfold raise_for_status
    rw [if_pos ⟨h4, h6⟩]

/-- Witness for C5 (amended) at the 304 oracle. -/
theorem C5_fetch_status_witness :
    fetch_html http304 "u" = Except.ok "cached body" :=
  (C5_fetch_status http304 "u" "cached body").1.mpr ⟨304, rfl, by omega⟩

/-- C6: writing `["#EXTM3U", "#EXTINF:-1, X 1\nhttp://u"]` with
`save_playlist` and reading the path back yields exactly
`"#EXTM3U\n#EXTINF:-1, X 1\nhttp://u\n"` — entries joined by single
newlines with exactly one trailing newline — whatever file was previously
at the path (overwrite). -/
theorem C6_round_trip (fs : String → Option String) :
    save_playlist fs ["#EXTM3U", "#EXTINF:-1, X 1\nhttp://u"] PLAYLIST_PATH
      PLAYLIST_PATH = some "#EXTM3U\n#EXTINF:-1, X 1\nhttp://u\n" := by
  unfold save_playlist write_text
  rw [if_pos rfl]
  decide

/-- C7: on HTML containing `https://cdn.example/a.m3u8?x=1` and
`https://cdn.example/live/chan2`, extraction returns exactly those two
links in lexicographic order. -/
theorem C7_pattern_coverage :
    extract_stream_links
      "<html><body> https://cdn.example/a.m3u8?x=1 https://cdn.example/live/chan2 </body></html>"
      = ["https://cdn.example/a.m3u8?x=1", "https://cdn.example/live/chan2"] := by
  decide

/-- C8: with zero sources, or with sources whose fetched pages yield zero
links, `build_playlist` returns exactly `["#EXTM3U"]`, whose serialised
form is the header followed by a single trailing newline; writing it puts
exactly `"#EXTM3U\n"` at the path. -/
theorem C8_empty_playlist (http : String → HttpOutcome) (sources : List Source)
    (h : ∀ s ∈ sources, ∃ body, fetch_html http s.url = Except.ok body ∧
      extract_stream_links body = []) :
    build_playlist http sources = Except.ok ["#EXTM3U"] ∧
    playlistText ["#EXTM3U"] = "#EXTM3U\n" ∧
    ∀ fs, save_playlist fs ["#EXTM3U"] PLAYLIST_PATH PLAYLIST_PATH
      = some "#EXTM3U\n" := by
  refine ⟨build_playlist_ok (buildEntries_no_links h), by decide, ?_⟩
  intro fs
  unfold save_playlist write_text
  rw [if_pos rfl]
  decide

def httpC8 : String → HttpOutcome := fun _ => .response 200 "<p>plain text</p>"

/-- Witness for C8: a one-source registry whose page has no links (the
zero-source case is the same hypothesis vacuously). -/
theorem C8_empty_playlist_witness :
    build_playlist httpC8 [⟨"Solo", "http://solo.example/"⟩]
      = Except.ok ["#EXTM3U"] :=
  (C8_empty_playlist httpC8 [⟨"Solo", "http://solo.example/"⟩]
    (by
      intro s hs
      rw [List.mem_singleton] at hs
      subst hs
      exact ⟨"<p>plain text</p>", by decide, by decide⟩)).1

/-- C9: if no position of the HTML starts a match of either pattern (no
substring matches), extraction returns the empty sequence — the tag-stripped
text rendering cannot create a match either, because a match is space-free
and so lies inside one text segment, a contiguous substring of the HTML. -/
theorem C9_no_match (html : String)
    (h : ∀ i, i ≤ html.data.length →
      matchAt m3u8Lits (html.data.drop i) = none ∧
      matchAt streamLiveLits (html.data.drop i) = none) :
    extract_stream_links html = [] := by
  have hall : ∀ i, matchAt m3u8Lits (html.data.drop i) = none ∧
      matchAt streamLiveLits (html.data.drop i) = none := by
    intro i
    by_cases hi : i ≤ html.data.length
    · exact h i hi
    · rw [List.drop_eq_nil_of_le (by omega)]
      exact ⟨matchAt_nil _, matchAt_nil _⟩
  have h1 : ∀ i, matchAt m3u8Lits (html.data.drop i) = none :=
    fun i => (hall i).1
  have h2 : ∀ i, matchAt streamLiveLits (html.data.drop i) = none :=
    fun i => (hall i).2
  have g1 := get_text_no_match m3u8Lits_ok h1
  have g2 := get_text_no_match streamLiveLits_ok h2
  unfold extract_stream_links
  rw [findall_nil_of_no_match h1, findall_nil_of_no_match h2,
    findall_nil_of_no_match g1, findall_nil_of_no_match g2]
  rfl

/-- Witness for C9 at the spec's example input. -/
theorem C9_no_match_witness :
    extract_stream_links "<html><body>hello</body></html>" = [] :=
  C9_no_match "<html><body>hello</body></html>" (by decide)

theorem linkChar_props {c : Char} (h : isLinkChar c = true) :
    pyIsSpace c = false ∧ c ≠ '\n' ∧ c ≠ '\'' ∧ c ≠ '\"' := by
  unfold isLinkChar at h
  simp only [Bool.not_eq_true', Bool.or_eq_false_iff, beq_eq_false_iff_ne,
    ne_eq] at h
  obtain ⟨⟨hsp, hq1⟩, hq2⟩ := h
  refine ⟨hsp, ?_, hq1, hq2⟩
  intro he
  subst he
  exact absurd hsp (by decide)

theorem build_playlist_ok_shape {http : String → HttpOutcome}
    {sources : List Source} {es : List String}
    (h : build_playlist http sources = Except.ok es) :
    ∃ l, buildEntries http sources = Except.ok l ∧ es = "#EXTM3U" :: l := by
  unfold build_playlist at h
  split at h
  · rename_i l hb
    simp only [Except.ok.injEq] at h
    exact ⟨l, hb, h.symm⟩
  · simp at h

theorem entry_one_newline {name url : String} (hname : '\n' ∉ name.data)
    (hurl : '\n' ∉ url.data) :
    (format_playlist_entry name url).data.count '\n' = 1 := by
  unfold format_playlist_entry
  rw [String.data_append, String.data_append, String.data_append]
  rw [List.count_append, List.count_append, List.count_append]
  rw [List.count_eq_zero.mpr hname, List.count_eq_zero.mpr hurl]
  have h1 : ("#EXTINF:-1, ".data).count '\n' = 0 := by decide
  have h2 : ("\n".data).count '\n' = 1 := by decide
  omega

theorem name_no_newline {s : String} {i : Nat} (hs : '\n' ∉ s.data) :
    '\n' ∉ (s ++ " " ++ natToStr i).data := by
  rw [String.data_append, String.data_append]
  intro hm
  rcases List.mem_append.mp hm with hm | hm
  · rcases List.mem_append.mp hm with hm | hm
    · exact hs hm
    · exact absurd hm (by decide)
  · exact natToStr_no_newline i hm

/-- C10: every extracted link contains no whitespace character, no newline,
and no single or double quote (the match character class excludes them);
consequently, for a registry whose display names contain no newline (as the
hardcoded `SOURCES` do), every playlist entry after the `#EXTM3U` header
contains exactly one newline, i.e. is exactly a two-line block. -/
theorem C10_link_chars_and_entries :
    (∀ html w, w ∈ extract_stream_links html → ∀ c ∈ w.data,
      pyIsSpace c = false ∧ c ≠ '\n' ∧ c ≠ '\'' ∧ c ≠ '\"') ∧
    (∀ (http : String → HttpOutcome) (sources : List Source) (es : List String),
      (∀ s ∈ sources, '\n' ∉ s.name.data) →
      build_playlist http sources = Except.ok es →
      es.head? = some "#EXTM3U" ∧ ∀ e ∈ es.tail, e.data.count '\n' = 1) := by
  have hpart1 : ∀ html w, w ∈ extract_stream_links html → ∀ c ∈ w.data,
      pyIsSpace c = false ∧ c ≠ '\n' ∧ c ≠ '\'' ∧ c ≠ '\"' := by
    intro html w hw c hc
    obtain ⟨lits, cs, n, hcase, hm, hww⟩ := extract_mem hw
    have hOK : litsOK lits = true := by
      rcases hcase with h | h <;> subst h
      · exact m3u8Lits_ok
      · exact streamLiveLits_ok
    have hall := matchAt_take_all_link hOK hm
    subst hww
    exact linkChar_props (List.all_eq_true.mp hall c hc)
  refine ⟨hpart1, ?_⟩
  intro http sources es hnames hb
  obtain ⟨l, hbe, hes⟩ := build_playlist_ok_shape hb
  subst hes
  refine ⟨rfl, ?_⟩
  intro e he
  simp only [List.tail_cons] at he
  obtain ⟨s, hsmem, i, link, html, hf, hlink, hfmt⟩ := buildEntries_ok_mem hbe he
  rw [hfmt]
  apply entry_one_newline
  · exact name_no_newline (hnames s hsmem)
  · intro hm
    exact ((hpart1 html link hlink '\n' hm).2).1 rfl

def httpC10 : String → HttpOutcome :=
  fun _ => .response 200 "see http://a.example/live/x now"

/-- Witness for C10: a character of a concretely extracted link, and the
header position of a concrete build over `SOURCES`. -/
theorem C10_link_chars_and_entries_witness :
    (pyIsSpace 'h' = false ∧ 'h' ≠ '\n' ∧ 'h' ≠ '\'' ∧ 'h' ≠ '\"') ∧
    (["#EXTM3U",
      "#EXTINF:-1, Toffee 1\nhttp://a.example/live/x",
      "#EXTINF:-1, Bongo 1\nhttp://a.example/live/x"] : List String).head?
      = some "#EXTM3U" := by
  refine ⟨C10_link_chars_and_entries.1 "see http://a.example/live/x now"
    "http://a.example/live/x" (by decide) 'h' (by decide), ?_⟩
  exact (C10_link_chars_and_entries.2 httpC10 SOURCES
    ["#EXTM3U",
     "#EXTINF:-1, Toffee 1\nhttp://a.example/live/x",
     "#EXTINF:-1, Bongo 1\nhttp://a.example/live/x"]
    (by decide) (by decide)).1
